import Mathlib

/-!
Verification development for `caf::scheduler::coordinator<Policy>`
(src/libcaf_core/caf/scheduler/coordinator.hpp).

The coordinator owns a fixed pool of workers and drives startup, external
enqueueing, and a work-stealing-safe shutdown protocol.  We embed the
sequential behaviour of the coordinator's member functions directly from the
source.  Concurrency is resolved by an explicit oracle: the drain loop of
`stop()` blocks each iteration until *some* worker reports having executed
the shutdown sentinel, so we parameterize the loop by the list of reported
worker identities, one per iteration, and state hypotheses only a live
worker can report (a worker executes the sentinel at most once, and
terminates right after).

Workers are identified by their index (a `Nat`); a `worker_type*` pointer
is modelled by the index of the worker it points to, with `Option` capturing
nullness where the source uses `nullptr`.
-/

/-- Modelled from the spec: `resumable::resume_result` (resumable.hpp is not
part of the sources at hand); the spec lists the results
`{Done, AwaitingMoreWork, ShutdownExecutionUnit}`. -/
inductive ResumeResult where
  | done
  | awaiting_more_work
  | shutdown_execution_unit
deriving DecidableEq, Repr

/-- State of the `shutdown_helper` defined locally inside `coordinator::stop`:
`last_worker` is the `execution_unit*` field (`none` models `nullptr`);
`notifyCount` counts the `cv.notify_all()` calls so that signalling is
observable in the embedding.  The mutex serializing access is resolved by
the sequential embedding itself. -/
structure ShutdownHelper where
  lastWorker : Option Nat
  notifyCount : Nat
deriving DecidableEq, Repr

/-- The constructor `shutdown_helper() : last_worker(nullptr)`. -/
def ShutdownHelper.init : ShutdownHelper :=
  { lastWorker := none, notifyCount := 0 }

/-- `shutdown_helper::resume(execution_unit* ptr, size_t)`: under the mutex,
store `ptr` into `last_worker`, signal the condition variable, and return
`resumable::shutdown_execution_unit`.  `ptr` is the identity of the executing
worker (the source asserts `ptr != nullptr`); the `size_t` max-steps argument
is ignored by the source. -/
def ShutdownHelper.resume (sh : ShutdownHelper) (ptr : Nat) (_maxSteps : Nat) :
    ShutdownHelper × ResumeResult :=
  ({ lastWorker := some ptr, notifyCount := sh.notifyCount + 1 },
   ResumeResult.shutdown_execution_unit)

/-- C3: every invocation of the shutdown sentinel's `resume(worker, max_steps)`,
whichever worker invokes it, stores the identity of the executing worker into
the sentinel's last-reporting-worker field, signals the condition variable,
and returns `shutdown_execution_unit` — never `done` nor
`awaiting_more_work`. -/
theorem shutdown_helper_resume_spec (sh : ShutdownHelper) (ptr maxSteps : Nat) :
    (sh.resume ptr maxSteps).1.lastWorker = some ptr ∧
    (sh.resume ptr maxSteps).1.notifyCount = sh.notifyCount + 1 ∧
    (sh.resume ptr maxSteps).2 = ResumeResult.shutdown_execution_unit ∧
    (sh.resume ptr maxSteps).2 ≠ ResumeResult.done ∧
    (sh.resume ptr maxSteps).2 ≠ ResumeResult.awaiting_more_work := by
  refine ⟨rfl, rfl, rfl, ?_, ?_⟩ <;> simp [ShutdownHelper.resume]

/-- One iteration of the drain loop of `coordinator::stop`, as recorded in the
loop's trace: `aliveAt` is the value of `alive_workers` at the top of the
iteration, `target` the worker the sentinel is submitted to
(`*alive_workers.begin()`, i.e. the least element under the set's order),
and `reported` the worker identity read from `sh.last_worker` after the
condition-variable wait. -/
structure DrainStep where
  aliveAt : Finset Nat
  target : Nat
  reported : Nat
deriving DecidableEq

/-- The `while (!alive_workers.empty())` loop of `coordinator::stop`,
parameterized by the sequence `rs` of worker identities reported by the
concurrent workers, one per iteration.  Each iteration submits the sentinel
to `*alive_workers.begin()` (modelled by `Finset.min'`, since `std::set`
iterates in increasing order), blocks until a report arrives, erases the
reported worker from the set and resets `last_worker`.  Exhausting `rs`
while the set is still nonempty models the blocking wait with no report
pending (the hang the spec ascribes to a liveness-violating policy): the
loop is stuck, and the function returns the trace so far together with the
remaining set. -/
def drainLoop : Finset Nat → List Nat → List DrainStep × Finset Nat
  | alive, [] => ([], alive)
  | alive, r :: rs =>
    if h : alive.Nonempty then
      let rest := drainLoop (alive.erase r) rs
      ({ aliveAt := alive, target := alive.min' h, reported := r } :: rest.1, rest.2)
    else
      ([], alive)

/-- A report sequence only a live worker could produce: each reported worker
is a member of the alive set current at its iteration.  This is the physical
precondition of the protocol — a worker terminates right after executing the
sentinel, so a worker already erased from the set cannot report again. -/
def validSeq : Finset Nat → List Nat → Bool
  | _, [] => true
  | alive, r :: rs => r ∈ alive && validSeq (alive.erase r) rs

theorem drainLoop_spec (rs : List Nat) (alive : Finset Nat)
    (hv : validSeq alive rs = true) (hlen : rs.length = alive.card) :
    (drainLoop alive rs).2 = ∅ ∧
    (drainLoop alive rs).1.length = alive.card ∧
    (drainLoop alive rs).1.map DrainStep.reported = rs ∧
    rs.Nodup ∧ rs.toFinset = alive := by
  induction rs generalizing alive with
  | nil =>
    have : alive = ∅ := Finset.card_eq_zero.mp hlen.symm
    subst this
    simp [drainLoop]
  | cons r rs ih =>
    simp only [validSeq, Bool.and_eq_true, decide_eq_true_eq] at hv
    obtain ⟨hr, hv'⟩ := hv
    have hne : alive.Nonempty := ⟨r, hr⟩
    have hpos : 1 ≤ alive.card := Finset.card_pos.mpr hne
    have herase : (alive.erase r).card = alive.card - 1 := Finset.card_erase_of_mem hr
    have hlen' : rs.length + 1 = alive.card := by simpa using hlen
    have hcard : rs.length = (alive.erase r).card := by omega
    obtain ⟨h2, h3, h4, h5, h6⟩ := ih (alive.erase r) hv' hcard
    have hd : drainLoop alive (r :: rs) =
        ({ aliveAt := alive, target := alive.min' hne, reported := r } ::
          (drainLoop (alive.erase r) rs).1, (drainLoop (alive.erase r) rs).2) := by
      simp [drainLoop, hne]
    refine ⟨?_, ?_, ?_, ?_, ?_⟩
    · rw [hd]; exact h2
    · rw [hd]
      simp only [List.length_cons, h3]
      omega
    · rw [hd]
      simp [h4]
    · refine List.nodup_cons.mpr ⟨?_, h5⟩
      intro hmem
      have hmem' : r ∈ rs.toFinset := List.mem_toFinset.mpr hmem
      rw [h6] at hmem'
      exact (Finset.not_mem_erase r alive) hmem'
    · simp [List.toFinset_cons, h6, Finset.insert_erase hr]

theorem drainLoop_step_alive (rs : List Nat) (alive : Finset Nat) (k : Nat)
    (step : DrainStep) (h : (drainLoop alive rs).1[k]? = some step) :
    step.aliveAt = alive \ (rs.take k).toFinset ∧
    step.target ∈ step.aliveAt ∧
    rs[k]? = some step.reported := by
  induction rs generalizing alive k with
  | nil => simp [drainLoop] at h
  | cons r rs ih =>
    by_cases hne : alive.Nonempty
    · have hd : drainLoop alive (r :: rs) =
          ({ aliveAt := alive, target := alive.min' hne, reported := r } ::
            (drainLoop (alive.erase r) rs).1, (drainLoop (alive.erase r) rs).2) := by
        simp [drainLoop, hne]
      rw [hd] at h
      cases k with
      | zero =>
        simp only [List.getElem?_cons_zero, Option.some.injEq] at h
        subst h
        refine ⟨by simp, Finset.min'_mem alive hne, by simp⟩
      | succ k =>
        simp only [List.getElem?_cons_succ] at h
        obtain ⟨ha, ht, hrk⟩ := ih (alive.erase r) k h
        refine ⟨?_, ht, by simpa using hrk⟩
        rw [ha, List.take_succ_cons, List.toFinset_cons]
        ext x
        simp only [Finset.mem_sdiff, Finset.mem_erase, Finset.mem_insert]
        tauto
    · simp [drainLoop, hne] at h

/-- C1: for every worker count N ≥ 1 and every report sequence of length N
that only live workers could produce, one `stop()` call performs exactly N
iterations of the sentinel drain loop: the alive set starts as all N worker
indices, each iteration submits the sentinel to a worker still in the set
and removes exactly the reported worker (the set at iteration k is the
initial set minus the k workers reported so far), the sentinel's execution
is reported exactly N times — once per distinct worker, covering all N
workers — and the loop terminates with the set empty. -/
theorem stop_drain_exactly_num_workers (N : Nat) (rs : List Nat) (_hN : 1 ≤ N)
    (hv : validSeq (Finset.range N) rs = true) (hlen : rs.length = N) :
    (drainLoop (Finset.range N) rs).2 = ∅ ∧
    (drainLoop (Finset.range N) rs).1.length = N ∧
    (drainLoop (Finset.range N) rs).1.map DrainStep.reported = rs ∧
    rs.Nodup ∧ rs.toFinset = Finset.range N ∧
    (∀ k step, (drainLoop (Finset.range N) rs).1[k]? = some step →
      step.target ∈ step.aliveAt ∧
      step.aliveAt = Finset.range N \ (rs.take k).toFinset) := by
  have hc : rs.length = (Finset.range N).card := by
    simpa [Finset.card_range] using hlen
  obtain ⟨h1, h2, h3, h4, h5⟩ := drainLoop_spec rs (Finset.range N) hv hc
  refine ⟨h1, by simpa [Finset.card_range] using h2, h3, h4, h5, ?_⟩
  intro k step hk
  obtain ⟨ha, ht, _⟩ := drainLoop_step_alive rs (Finset.range N) k step hk
  exact ⟨ht, ha⟩

theorem stop_drain_exactly_num_workers_witness :
    (drainLoop (Finset.range 2) [1, 0]).2 = ∅ ∧
    (drainLoop (Finset.range 2) [1, 0]).1.length = 2 ∧
    ([1, 0] : List Nat).toFinset = Finset.range 2 :=
  ⟨(stop_drain_exactly_num_workers 2 [1, 0] (by decide) (by decide) (by decide)).1,
   (stop_drain_exactly_num_workers 2 [1, 0] (by decide) (by decide) (by decide)).2.1,
   (stop_drain_exactly_num_workers 2 [1, 0] (by decide) (by decide) (by decide)).2.2.2.2.1⟩

/-- C2: during the drain loop of `stop()`, the sentinel is never submitted to
a worker already reported: at every iteration k, the submission target is a
member of the alive set current at that iteration, that set is exactly the
initial worker set minus the workers reported before iteration k, and hence
the target differs from every worker reported at an earlier iteration. -/
theorem stop_never_resubmits_reported (N : Nat) (rs : List Nat) (k : Nat)
    (step : DrainStep)
    (h : (drainLoop (Finset.range N) rs).1[k]? = some step) :
    step.target ∈ step.aliveAt ∧
    step.aliveAt = Finset.range N \ (rs.take k).toFinset ∧
    ∀ j, j < k → rs[j]? ≠ some step.target := by
  obtain ⟨ha, ht, _⟩ := drainLoop_step_alive rs (Finset.range N) k step h
  refine ⟨ht, ha, ?_⟩
  intro j hj hcon
  have htake : (rs.take k)[j]? = some step.target := by
    rw [List.getElem?_take_of_lt hj]
    exact hcon
  have hmem : step.target ∈ (rs.take k).toFinset :=
    List.mem_toFinset.mpr (List.getElem?_mem htake)
  rw [ha] at ht
  exact (Finset.mem_sdiff.mp ht).2 hmem

theorem stop_never_resubmits_reported_witness :
    (([1, 0] : List Nat))[0]? ≠ some (DrainStep.mk {0} 0 0).target :=
  (stop_never_resubmits_reported 2 [1, 0] 1 (DrainStep.mk {0} 0 0)
    (by decide)).2.2 0 (by decide)

/-- A `worker_type` as constructed by `coordinator::start`: the constructor
call `worker_type(i, this, max_throughput_)` receives the worker's index, a
back-reference to the coordinator (modelled by an opaque identifier), and
the configured max-steps-per-resume value. -/
structure WorkerState where
  id : Nat
  coordRef : Nat
  maxThroughput : Nat
deriving DecidableEq, Repr

/-- The `workers_` vector as populated by the construction loop of
`coordinator::start`: for `i = 0 .. num-1`,
`workers_.emplace_back(new worker_type(i, this, max_throughput_))`. -/
def startPool (coord num maxThroughput : Nat) : List WorkerState :=
  (List.range num).map fun i =>
    { id := i, coordRef := coord, maxThroughput := maxThroughput }

/-- Events of `coordinator::start`, in program order: the construction loop,
then the loop `for (auto& w : workers_) w->start();`, then `super::start()`. -/
inductive StartEvent where
  | constructWorker (i : Nat)
  | startThread (i : Nat)
  | superStart
deriving DecidableEq, Repr

/-- The event trace of `coordinator::start` for `num = num_workers()`. -/
def startEvents (num : Nat) : List StartEvent :=
  ((List.range num).map StartEvent.constructWorker)
    ++ ((List.range num).map StartEvent.startThread)
    ++ [StartEvent.superStart]

theorem startEvents_getElem (num k : Nat) :
    (startEvents num)[k]? =
      if k < num then some (StartEvent.constructWorker k)
      else if k < 2 * num then some (StartEvent.startThread (k - num))
      else if k = 2 * num then some StartEvent.superStart
      else none := by
  rw [startEvents]
  rcases Nat.lt_or_ge k (2 * num) with h2 | h2
  · rw [List.getElem?_append_left
      (by simp only [List.length_append, List.length_map, List.length_range]; omega)]
    rcases Nat.lt_or_ge k num with h1 | h1
    · rw [List.getElem?_append_left (by simpa using h1), List.getElem?_map,
          List.getElem?_range h1]
      simp [h1]
    · rw [List.getElem?_append_right (by simpa using h1)]
      simp only [List.length_map, List.length_range]
      have h3 : k - num < num := by omega
      rw [List.getElem?_map, List.getElem?_range h3]
      simp [show ¬ k < num by omega, h2]
  · rw [List.getElem?_append_right
      (by simp only [List.length_append, List.length_map, List.length_range]; omega)]
    simp only [List.length_append, List.length_map, List.length_range]
    have hnc : ¬ k < num := by omega
    have hnc2 : ¬ k < 2 * num := by omega
    by_cases h3 : k = 2 * num
    · have hz : k - (num + num) = 0 := by omega
      rw [hz, if_neg hnc, if_neg hnc2, if_pos h3]
      simp
    · have hn : ([StartEvent.superStart] : List StartEvent)[k - (num + num)]? = none :=
        List.getElem?_eq_none (by simp; omega)
      rw [hn, if_neg hnc, if_neg hnc2, if_neg h3]

theorem startEvents_construct_lt (num k i : Nat)
    (h : (startEvents num)[k]? = some (StartEvent.constructWorker i)) :
    k < num := by
  rw [startEvents_getElem] at h
  split at h
  · assumption
  · split at h
    · exact absurd h (by simp)
    · split at h
      · exact absurd h (by simp)
      · exact Option.noConfusion h

theorem startEvents_thread_ge (num k j : Nat)
    (h : (startEvents num)[k]? = some (StartEvent.startThread j)) :
    num ≤ k := by
  rw [startEvents_getElem] at h
  split at h
  · exact absurd h (by simp)
  · omega

/-- C6: for every configured worker count N ≥ 1, `start()` constructs exactly
N workers, the worker at position i being constructed with index i, the
back-reference to this coordinator, and the configured max-steps-per-resume
value; every construction event precedes every thread-start event, and the
delegation to the base class comes last, after all thread starts. -/
theorem coordinator_start_spec (coord num maxThroughput : Nat)
    (_hN : 1 ≤ num) :
    (startPool coord num maxThroughput).length = num ∧
    (∀ i, i < num → (startPool coord num maxThroughput)[i]? =
      some { id := i, coordRef := coord, maxThroughput := maxThroughput }) ∧
    (∀ (k1 k2 i j : Nat), (startEvents num)[k1]? = some (StartEvent.constructWorker i) →
      (startEvents num)[k2]? = some (StartEvent.startThread j) → k1 < k2) ∧
    (startEvents num)[2 * num]? = some StartEvent.superStart ∧
    (∀ k e, (startEvents num)[k]? = some e → e ≠ StartEvent.superStart →
      k < 2 * num) := by
  refine ⟨by simp [startPool], ?_, ?_, ?_, ?_⟩
  · intro i hi
    simp [startPool, List.getElem?_map, List.getElem?_range hi]
  · intro k1 k2 i j h1 h2
    have ha := startEvents_construct_lt num k1 i h1
    have hb := startEvents_thread_ge num k2 j h2
    omega
  · rw [startEvents_getElem]
    have h1 : ¬ 2 * num < num := by omega
    have h2 : ¬ 2 * num < 2 * num := by omega
    simp [h1, h2]
  · intro k e hk he
    rw [startEvents_getElem] at hk
    split at hk
    · omega
    · split at hk
      · omega
      · split at hk
        · exact absurd (by simpa using hk.symm) he
        · exact Option.noConfusion hk

theorem coordinator_start_spec_witness :
    (startPool 0 2 100).length = 2 ∧
    (startPool 0 2 100)[1]? = some { id := 1, coordRef := 0, maxThroughput := 100 } ∧
    (startEvents 2)[4]? = some StartEvent.superStart :=
  ⟨(coordinator_start_spec 0 2 100 (by decide)).1,
   (coordinator_start_spec 0 2 100 (by decide)).2.1 1 (by decide),
   (coordinator_start_spec 0 2 100 (by decide)).2.2.2.1⟩

/-- `coordinator::worker_by_id(size_t x)`: `return workers_[x].get();` — a raw
index into the pool with no bounds check.  The embedding returns `none`
exactly where the C++ access has no defined result (out-of-range index, or
pool not yet populated), and `some w` for the in-range unchecked read. -/
def worker_by_id (workers_ : List WorkerState) (x : Nat) : Option WorkerState :=
  workers_[x]?

/-- C7: for every index i < num_workers, after `start()` has populated the
pool, `worker_by_id(i)` returns (non-null, non-owning) the worker constructed
with index i; for i ≥ num_workers — and for any index before `start()` has
run, when the pool is empty — the lookup has no defined result, since it
indexes the pool without any bounds check. -/
theorem worker_by_id_spec (coord num maxThroughput i : Nat) :
    (i < num → worker_by_id (startPool coord num maxThroughput) i =
      some { id := i, coordRef := coord, maxThroughput := maxThroughput }) ∧
    (num ≤ i → worker_by_id (startPool coord num maxThroughput) i = none) ∧
    worker_by_id [] i = none := by
  refine ⟨?_, ?_, by simp [worker_by_id]⟩
  · intro hi
    simp [worker_by_id, startPool, List.getElem?_map, List.getElem?_range hi]
  · intro hi
    apply List.getElem?_eq_none
    simpa [startPool] using hi

theorem worker_by_id_spec_witness :
    worker_by_id (startPool 7 3 50) 2 =
      some { id := 2, coordRef := 7, maxThroughput := 50 } ∧
    worker_by_id (startPool 7 3 50) 3 = none :=
  ⟨(worker_by_id_spec 7 3 50 2).1 (by decide),
   (worker_by_id_spec 7 3 50 3).2.1 (by decide)⟩

/-- Events of `coordinator::stop` in program order.  `refSentinel` is one
`sh.ref()` call of the setup loop; `submitSentinel`/`reportExec` are one
drain-loop iteration's `external_enqueue(&sh)` and the reported execution it
waits for; `stopActors` is the `stop_actors()` call; `joinWorker i` is
`w->get_thread().join()` on worker i; `cleanupWorker i` is
`policy_.foreach_resumable(w.get(), f)` on worker i and `cleanupCentral`
is `policy_.foreach_central_resumable(this, f)`. -/
inductive StopEvent where
  | refSentinel
  | submitSentinel (target : Nat)
  | reportExec (worker : Nat)
  | stopActors
  | joinWorker (i : Nat)
  | cleanupWorker (i : Nat)
  | cleanupCentral
deriving DecidableEq, Repr

/-- Whether an event belongs to the sentinel drain loop. -/
def StopEvent.isDrain : StopEvent → Bool
  | StopEvent.submitSentinel _ => true
  | StopEvent.reportExec _ => true
  | _ => false

/-- Whether an event belongs to the final cleanup pass. -/
def StopEvent.isCleanup : StopEvent → Bool
  | StopEvent.cleanupWorker _ => true
  | StopEvent.cleanupCentral => true
  | _ => false

/-- The events of the drain loop: each iteration submits the sentinel, then
waits for and consumes one execution report. -/
def drainEvents : List DrainStep → List StopEvent
  | [] => []
  | s :: ss => StopEvent.submitSentinel s.target ::
      StopEvent.reportExec s.reported :: drainEvents ss

/-- The `for (size_t i = 0; i < num; ++i) { alive_workers.insert(...); sh.ref(); }`
setup loop, as events. -/
def stopSetupEvents (N : Nat) : List StopEvent :=
  (List.range N).map fun _ => StopEvent.refSentinel

/-- The `for (auto& w : workers_) w->get_thread().join();` loop, as events. -/
def joinEvents (N : Nat) : List StopEvent :=
  (List.range N).map StopEvent.joinWorker

/-- The final cleanup pass, as events: `policy_.foreach_resumable(w.get(), f)`
for every worker in pool order, then `policy_.foreach_central_resumable(this, f)`. -/
def cleanupEvents (N : Nat) : List StopEvent :=
  (List.range N).map StopEvent.cleanupWorker ++ [StopEvent.cleanupCentral]

/-- The event trace of one `coordinator::stop()` call with N workers and
report sequence `rs`, in the program order of the source: setup loop, drain
loop, `stop_actors()`, join loop, cleanup pass. -/
def stopTrace (N : Nat) (rs : List Nat) : List StopEvent :=
  stopSetupEvents N
    ++ drainEvents (drainLoop (Finset.range N) rs).1
    ++ [StopEvent.stopActors]
    ++ joinEvents N
    ++ cleanupEvents N

theorem drainEvents_length (steps : List DrainStep) :
    (drainEvents steps).length = 2 * steps.length := by
  induction steps with
  | nil => rfl
  | cons s ss ih =>
    simp only [drainEvents, List.length_cons, ih]
    omega

theorem drainEvents_isDrain (steps : List DrainStep) (e : StopEvent)
    (h : e ∈ drainEvents steps) : e.isDrain = true := by
  induction steps with
  | nil => simp [drainEvents] at h
  | cons s ss ih =>
    simp only [drainEvents, List.mem_cons] at h
    rcases h with h | h | h
    · subst h; rfl
    · subst h; rfl
    · exact ih h

theorem append_index_ge {α : Type} (A B : List α) (k : Nat) (x : α)
    (h : (A ++ B)[k]? = some x) (hx : x ∉ A) : A.length ≤ k := by
  rcases Nat.lt_or_ge k A.length with hk | hk
  · rw [List.getElem?_append_left hk] at h
    exact absurd (List.getElem?_mem h) hx
  · exact hk

theorem append_index_lt {α : Type} (A B : List α) (k : Nat) (x : α)
    (h : (A ++ B)[k]? = some x) (hx : x ∉ B) : k < A.length := by
  rcases Nat.lt_or_ge k A.length with hk | hk
  · exact hk
  · rw [List.getElem?_append_right hk] at h
    exact absurd (List.getElem?_mem h) hx

theorem refSentinel_not_drain_post (N : Nat) (rs : List Nat)
    (e : StopEvent) (he : e = StopEvent.refSentinel) :
    e ∉ drainEvents (drainLoop (Finset.range N) rs).1
      ++ ([StopEvent.stopActors] ++ (joinEvents N ++ cleanupEvents N)) := by
  subst he
  intro hmem
  rcases List.mem_append.mp hmem with h | h
  · exact absurd (drainEvents_isDrain _ _ h) (by simp [StopEvent.isDrain])
  · simp [joinEvents, cleanupEvents, List.mem_append, List.mem_map] at h

theorem drain_not_mem_post (N : Nat) (e : StopEvent) (he : e.isDrain = true) :
    e ∉ [StopEvent.stopActors] ++ (joinEvents N ++ cleanupEvents N) := by
  intro hmem
  cases e <;> simp [StopEvent.isDrain] at he <;>
    simp [joinEvents, cleanupEvents, List.mem_append, List.mem_map] at hmem

theorem join_not_mem_pre (N : Nat) (rs : List Nat) (i : Nat) :
    StopEvent.joinWorker i ∉
      stopSetupEvents N ++ drainEvents (drainLoop (Finset.range N) rs).1
        ++ [StopEvent.stopActors] := by
  intro hmem
  rcases List.mem_append.mp hmem with h | h
  · rcases List.mem_append.mp h with h1 | h1
    · simp [stopSetupEvents, List.mem_map] at h1
    · exact absurd (drainEvents_isDrain _ _ h1) (by simp [StopEvent.isDrain])
  · simp at h

theorem join_not_mem_cleanup (N i : Nat) :
    StopEvent.joinWorker i ∉ cleanupEvents N := by
  simp [cleanupEvents, List.mem_append, List.mem_map]

theorem cleanup_not_mem_pre (N : Nat) (rs : List Nat) (e : StopEvent)
    (he : e.isCleanup = true) :
    e ∉ (stopSetupEvents N ++ drainEvents (drainLoop (Finset.range N) rs).1
        ++ [StopEvent.stopActors]) ++ joinEvents N := by
  intro hmem
  rcases List.mem_append.mp hmem with h | h
  · rcases List.mem_append.mp h with h1 | h1
    · rcases List.mem_append.mp h1 with h2 | h2
      · cases e <;> simp [StopEvent.isCleanup] at he <;>
          simp [stopSetupEvents, List.mem_map] at h2
      · have := drainEvents_isDrain _ _ h2
        cases e <;> simp [StopEvent.isCleanup] at he <;>
          simp [StopEvent.isDrain] at this
    · cases e <;> simp [StopEvent.isCleanup] at he <;> simp at h1
  · cases e <;> simp [StopEvent.isCleanup] at he <;>
      simp [joinEvents, List.mem_map] at h

theorem stopActors_not_mem_drainEvents (steps : List DrainStep) :
    StopEvent.stopActors ∉ drainEvents steps := fun h =>
  by simpa [StopEvent.isDrain] using drainEvents_isDrain _ _ h

theorem joinWorker_not_mem_drainEvents (steps : List DrainStep) (i : Nat) :
    StopEvent.joinWorker i ∉ drainEvents steps := fun h =>
  by simpa [StopEvent.isDrain] using drainEvents_isDrain _ _ h

/-- C4: `stop()` performs its phases in this fixed order: every drain-loop
event comes before the `stop_actors()` call, `stop_actors()` is invoked
exactly once, every thread join comes strictly after `stop_actors()` and
strictly before the cleanup pass, every worker's thread is joined exactly
once, and every cleanup event comes after the last join — so `stop_actors`
runs strictly between completion of sentinel-draining and the
thread-join/cleanup phase, and cleanup runs only after all joins. -/
theorem stop_phase_order (N : Nat) (rs : List Nat) :
    (stopTrace N rs)[N + 2 * (drainLoop (Finset.range N) rs).1.length]? =
      some StopEvent.stopActors ∧
    (stopTrace N rs).count StopEvent.stopActors = 1 ∧
    (∀ (k : Nat) (e : StopEvent), (stopTrace N rs)[k]? = some e →
      e.isDrain = true →
      k < N + 2 * (drainLoop (Finset.range N) rs).1.length) ∧
    (∀ (k i : Nat), (stopTrace N rs)[k]? = some (StopEvent.joinWorker i) →
      N + 2 * (drainLoop (Finset.range N) rs).1.length < k ∧
      k < N + 2 * (drainLoop (Finset.range N) rs).1.length + 1 + N) ∧
    (∀ (k : Nat) (e : StopEvent), (stopTrace N rs)[k]? = some e →
      e.isCleanup = true →
      N + 2 * (drainLoop (Finset.range N) rs).1.length + N < k) ∧
    (∀ i, i < N → (stopTrace N rs).count (StopEvent.joinWorker i) = 1) := by
  refine ⟨?_, ?_, ?_, ?_, ?_, ?_⟩
  · have hgroup : stopTrace N rs =
        (stopSetupEvents N ++ drainEvents (drainLoop (Finset.range N) rs).1) ++
          ([StopEvent.stopActors] ++ (joinEvents N ++ cleanupEvents N)) := by
      simp [stopTrace, List.append_assoc]
    rw [hgroup, List.getElem?_append_right
      (by simp [stopSetupEvents, drainEvents_length])]
    simp [stopSetupEvents, drainEvents_length]
  · have c1 : List.count StopEvent.stopActors (stopSetupEvents N) = 0 :=
      List.count_eq_zero_of_not_mem (by simp [stopSetupEvents, List.mem_map])
    have c2 : List.count StopEvent.stopActors
        (drainEvents (drainLoop (Finset.range N) rs).1) = 0 :=
      List.count_eq_zero_of_not_mem
        (stopActors_not_mem_drainEvents (drainLoop (Finset.range N) rs).1)
    have c3 : List.count StopEvent.stopActors (joinEvents N) = 0 :=
      List.count_eq_zero_of_not_mem (by simp [joinEvents, List.mem_map])
    have c4 : List.count StopEvent.stopActors (cleanupEvents N) = 0 :=
      List.count_eq_zero_of_not_mem
        (by simp [cleanupEvents, List.mem_append, List.mem_map])
    rw [stopTrace]
    simp only [List.count_append, c1, c2, c3, c4]
    simp
  · intro k e hk he
    have hgroup : stopTrace N rs =
        (stopSetupEvents N ++ drainEvents (drainLoop (Finset.range N) rs).1) ++
          ([StopEvent.stopActors] ++ (joinEvents N ++ cleanupEvents N)) := by
      simp [stopTrace, List.append_assoc]
    rw [hgroup] at hk
    have := append_index_lt _ _ k e hk (drain_not_mem_post N e he)
    simpa [stopSetupEvents, drainEvents_length] using this
  · intro k i hk
    constructor
    · have hgroup : stopTrace N rs =
          (stopSetupEvents N ++ drainEvents (drainLoop (Finset.range N) rs).1
            ++ [StopEvent.stopActors]) ++ (joinEvents N ++ cleanupEvents N) := by
        simp [stopTrace, List.append_assoc]
      rw [hgroup] at hk
      have := append_index_ge _ _ k _ hk (join_not_mem_pre N rs i)
      simp only [List.length_append, List.length_cons, List.length_nil,
        stopSetupEvents, List.length_map, List.length_range,
        drainEvents_length] at this
      omega
    · have hgroup : stopTrace N rs =
          (stopSetupEvents N ++ drainEvents (drainLoop (Finset.range N) rs).1
            ++ [StopEvent.stopActors] ++ joinEvents N) ++ cleanupEvents N := by
        simp [stopTrace, List.append_assoc]
      rw [hgroup] at hk
      have := append_index_lt _ _ k _ hk (join_not_mem_cleanup N i)
      simp only [List.length_append, List.length_cons, List.length_nil,
        stopSetupEvents, joinEvents, List.length_map, List.length_range,
        drainEvents_length] at this
      omega
  · intro k e hk he
    have hgroup : stopTrace N rs =
        ((stopSetupEvents N ++ drainEvents (drainLoop (Finset.range N) rs).1
          ++ [StopEvent.stopActors]) ++ joinEvents N) ++ cleanupEvents N := by
      simp [stopTrace, List.append_assoc]
    rw [hgroup] at hk
    have := append_index_ge _ _ k e hk (cleanup_not_mem_pre N rs e he)
    simp only [List.length_append, List.length_cons, List.length_nil,
      stopSetupEvents, joinEvents, List.length_map, List.length_range,
      drainEvents_length] at this
    omega
  · intro i hi
    have c1 : List.count (StopEvent.joinWorker i) (stopSetupEvents N) = 0 :=
      List.count_eq_zero_of_not_mem (by simp [stopSetupEvents, List.mem_map])
    have c2 : List.count (StopEvent.joinWorker i)
        (drainEvents (drainLoop (Finset.range N) rs).1) = 0 :=
      List.count_eq_zero_of_not_mem
        (joinWorker_not_mem_drainEvents (drainLoop (Finset.range N) rs).1 i)
    have c3 : List.count (StopEvent.joinWorker i) [StopEvent.stopActors] = 0 :=
      List.count_eq_zero_of_not_mem (by simp)
    have c4 : List.count (StopEvent.joinWorker i) (cleanupEvents N) = 0 :=
      List.count_eq_zero_of_not_mem
        (by simp [cleanupEvents, List.mem_append, List.mem_map])
    have hinj : Function.Injective StopEvent.joinWorker := by
      intro a b h
      injection h
    have c5 : List.count (StopEvent.joinWorker i) (joinEvents N) = 1 := by
      show List.count (StopEvent.joinWorker i)
        ((List.range N).map StopEvent.joinWorker) = 1
      rw [List.count_map_of_injective _ _ hinj,
          List.count_eq_one_of_mem (List.nodup_range N) (List.mem_range.mpr hi)]
    rw [stopTrace]
    simp only [List.count_append, c1, c2, c3, c4, c5]

theorem stop_phase_order_witness :
    (stopTrace 1 [0])[3]? = some StopEvent.stopActors ∧
    (4 : Nat) < 1 + 2 * (drainLoop (Finset.range 1) [0]).1.length + 1 + 1 ∧
    1 + 2 * (drainLoop (Finset.range 1) [0]).1.length + 1 < 5 ∧
    (stopTrace 1 [0]).count (StopEvent.joinWorker 0) = 1 :=
  ⟨(stop_phase_order 1 [0]).1,
   ((stop_phase_order 1 [0]).2.2.2.1 4 0 (by decide)).2,
   (stop_phase_order 1 [0]).2.2.2.2.1 5 (StopEvent.cleanupWorker 0)
     (by decide) (by decide),
   (stop_phase_order 1 [0]).2.2.2.2.2 0 (by decide)⟩

/-- The sequence of resumables to which `stop()` applies
`abstract_coordinator::cleanup_and_release` during its final pass:
`policy_.foreach_resumable(w.get(), f)` for each worker in pool order
applies `f` to every resumable still in that worker's local queue, then
`policy_.foreach_central_resumable(this, f)` applies `f` to every resumable
still in the central queue (the policy contract of spec §4.3: `foreach_*`
enumerates every currently-queued, unexecuted resumable of one queue).
Queues are the lists of queued resumables at drain time; resumables are
identified by `Nat`. -/
def cleanupCallbackTargets (workerQueues : List (List Nat))
    (central : List Nat) : List Nat :=
  workerQueues.flatten ++ central

/-- C5: after the join phase, the cleanup pass covers every worker's local
queue (one `cleanupWorker i` trace event per worker i < N, in addition to
one `cleanupCentral` event, as established on the stop trace) and the
callback is applied to each still-queued resumable exactly once: the number
of times a resumable r passes through the callback equals its total number
of occurrences across all worker queues and the central queue, so a
resumable queued exactly once is cleaned up exactly once, and no queue is
skipped. -/
theorem stop_cleanup_exactly_once (N : Nat) (rs : List Nat)
    (workerQueues : List (List Nat)) (central : List Nat) (r : Nat) :
    (∀ i, i < N → (stopTrace N rs).count (StopEvent.cleanupWorker i) = 1) ∧
    (stopTrace N rs).count StopEvent.cleanupCentral = 1 ∧
    (cleanupCallbackTargets workerQueues central).count r =
      (workerQueues.map fun q => q.count r).sum + central.count r ∧
    ((workerQueues.map fun q => q.count r).sum + central.count r = 1 →
      (cleanupCallbackTargets workerQueues central).count r = 1) := by
  have hcount : (cleanupCallbackTargets workerQueues central).count r =
      (workerQueues.map fun q => q.count r).sum + central.count r := by
    rw [cleanupCallbackTargets, List.count_append, List.count_flatten]
  refine ⟨?_, ?_, hcount, fun h => by rw [hcount, h]⟩
  · intro i hi
    have c1 : List.count (StopEvent.cleanupWorker i) (stopSetupEvents N) = 0 :=
      List.count_eq_zero_of_not_mem (by simp [stopSetupEvents, List.mem_map])
    have c2 : List.count (StopEvent.cleanupWorker i)
        (drainEvents (drainLoop (Finset.range N) rs).1) = 0 :=
      List.count_eq_zero_of_not_mem fun hmem =>
        by simpa [StopEvent.isDrain] using
          drainEvents_isDrain (drainLoop (Finset.range N) rs).1 _ hmem
    have c3 : List.count (StopEvent.cleanupWorker i) [StopEvent.stopActors] = 0 :=
      List.count_eq_zero_of_not_mem (by simp)
    have c4 : List.count (StopEvent.cleanupWorker i) (joinEvents N) = 0 :=
      List.count_eq_zero_of_not_mem (by simp [joinEvents, List.mem_map])
    have hinj : Function.Injective StopEvent.cleanupWorker := by
      intro a b h
      injection h
    have c5 : List.count (StopEvent.cleanupWorker i) (cleanupEvents N) = 1 := by
      rw [cleanupEvents, List.count_append,
          List.count_map_of_injective _ _ hinj,
          List.count_eq_one_of_mem (List.nodup_range N) (List.mem_range.mpr hi),
          List.count_eq_zero_of_not_mem (by simp)]
    rw [stopTrace]
    simp only [List.count_append, c1, c2, c3, c4, c5]
  · have c1 : List.count StopEvent.cleanupCentral (stopSetupEvents N) = 0 :=
      List.count_eq_zero_of_not_mem (by simp [stopSetupEvents, List.mem_map])
    have c2 : List.count StopEvent.cleanupCentral
        (drainEvents (drainLoop (Finset.range N) rs).1) = 0 :=
      List.count_eq_zero_of_not_mem fun hmem =>
        by simpa [StopEvent.isDrain] using
          drainEvents_isDrain (drainLoop (Finset.range N) rs).1 _ hmem
    have c3 : List.count StopEvent.cleanupCentral [StopEvent.stopActors] = 0 :=
      List.count_eq_zero_of_not_mem (by simp)
    have c4 : List.count StopEvent.cleanupCentral (joinEvents N) = 0 :=
      List.count_eq_zero_of_not_mem (by simp [joinEvents, List.mem_map])
    have c5 : List.count StopEvent.cleanupCentral (cleanupEvents N) = 1 := by
      rw [cleanupEvents, List.count_append,
          List.count_eq_zero_of_not_mem (by simp [List.mem_map])]
      simp
    rw [stopTrace]
    simp only [List.count_append, c1, c2, c3, c4, c5]

theorem stop_cleanup_exactly_once_witness :
    (stopTrace 2 [0, 1]).count (StopEvent.cleanupWorker 1) = 1 ∧
    (stopTrace 2 [0, 1]).count StopEvent.cleanupCentral = 1 ∧
    (cleanupCallbackTargets [[5], []] [7]).count 5 = 1 :=
  ⟨(stop_cleanup_exactly_once 2 [0, 1] [[5], []] [7] 5).1 1 (by decide),
   (stop_cleanup_exactly_once 2 [0, 1] [[5], []] [7] 5).2.1,
   (stop_cleanup_exactly_once 2 [0, 1] [[5], []] [7] 5).2.2.2 (by decide)⟩

/-- The setup loop of `stop()` preceding the drain loop:
`for (size_t i = 0; i < num; ++i) { alive_workers.insert(worker_by_id(i));
sh.ref(); }` — threading the pair (alive set, sentinel reference count)
through the loop, starting from the empty set and the count `rc0` the
stack-allocated sentinel holds at construction. -/
def stopSetup (N rc0 : Nat) : Finset Nat × Nat :=
  (List.range N).foldl (fun acc i => (insert i acc.1, acc.2 + 1)) (∅, rc0)

theorem stopSetup_eq (N rc0 : Nat) :
    stopSetup N rc0 = (Finset.range N, rc0 + N) := by
  induction N with
  | zero => rfl
  | succ n ih =>
    rw [stopSetup, List.range_succ, List.foldl_append]
    rw [stopSetup] at ih
    rw [ih]
    simp only [List.foldl_cons, List.foldl_nil, Finset.range_succ, Prod.mk.injEq]
    exact ⟨trivial, by omega⟩

/-- Modelled from the spec: the sentinel's reference count after k drain
iterations.  The spec's resumable lifecycle (§3, §9: shared ownership with a
release on completion; worker run loops are external collaborators not in
the sources at hand) has each worker release the reference it holds on the
sentinel when its run loop terminates after executing it — one release per
reported execution — while the setup loop's `sh.ref()` calls raised the
count by one per worker beforehand. -/
def sentinelRefCount (rc0 N k : Nat) : Nat :=
  rc0 + N - k

theorem drainLoop_length_le (rs : List Nat) (alive : Finset Nat)
    (hv : validSeq alive rs = true) :
    (drainLoop alive rs).1.length ≤ alive.card := by
  induction rs generalizing alive with
  | nil => simp [drainLoop]
  | cons r rs ih =>
    simp only [validSeq, Bool.and_eq_true, decide_eq_true_eq] at hv
    obtain ⟨hr, hv'⟩ := hv
    have hne : alive.Nonempty := ⟨r, hr⟩
    have hd : drainLoop alive (r :: rs) =
        ({ aliveAt := alive, target := alive.min' hne, reported := r } ::
          (drainLoop (alive.erase r) rs).1, (drainLoop (alive.erase r) rs).2) := by
      simp [drainLoop, hne]
    rw [hd]
    simp only [List.length_cons]
    have h1 := ih (alive.erase r) hv'
    have h2 : (alive.erase r).card = alive.card - 1 := Finset.card_erase_of_mem hr
    have h3 : 1 ≤ alive.card := Finset.card_pos.mpr hne
    omega

/-- C10: before the first sentinel submission, `stop()` raises the
stack-allocated sentinel's reference count by exactly `num_workers` — one
`sh.ref()` per worker inserted into the alive set (every `refSentinel` event
precedes every `submitSentinel` event in the stop trace, and the setup loop
ends with the set holding all N workers and the count at `rc0 + N`) — so
that with each of the N workers releasing one reference upon executing or
relinquishing the sentinel, the count never reaches zero while the drain
loop still uses the sentinel. -/
theorem stop_sentinel_refcount_safe (N rc0 : Nat) (rs : List Nat)
    (hrc : 1 ≤ rc0) (hv : validSeq (Finset.range N) rs = true) :
    (stopSetup N rc0).1 = Finset.range N ∧
    (stopSetup N rc0).2 = rc0 + N ∧
    (∀ (k : Nat), (stopTrace N rs)[k]? = some StopEvent.refSentinel → k < N) ∧
    (∀ (k t : Nat), (stopTrace N rs)[k]? = some (StopEvent.submitSentinel t) →
      N ≤ k) ∧
    (∀ (k : Nat), k ≤ (drainLoop (Finset.range N) rs).1.length →
      1 ≤ sentinelRefCount rc0 N k) := by
  refine ⟨by rw [stopSetup_eq], by rw [stopSetup_eq], ?_, ?_, ?_⟩
  · intro k hk
    have hgroup : stopTrace N rs =
        stopSetupEvents N ++ (drainEvents (drainLoop (Finset.range N) rs).1
          ++ ([StopEvent.stopActors] ++ (joinEvents N ++ cleanupEvents N))) := by
      simp [stopTrace, List.append_assoc]
    rw [hgroup] at hk
    have := append_index_lt _ _ k _ hk
      (refSentinel_not_drain_post N rs StopEvent.refSentinel rfl)
    simpa [stopSetupEvents] using this
  · intro k t hk
    have hgroup : stopTrace N rs =
        stopSetupEvents N ++ (drainEvents (drainLoop (Finset.range N) rs).1
          ++ ([StopEvent.stopActors] ++ (joinEvents N ++ cleanupEvents N))) := by
      simp [stopTrace, List.append_assoc]
    rw [hgroup] at hk
    have := append_index_ge _ _ k _ hk
      (by simp [stopSetupEvents, List.mem_map])
    simpa [stopSetupEvents] using this
  · intro k hk
    have hle : (drainLoop (Finset.range N) rs).1.length ≤ N := by
      simpa [Finset.card_range] using
        drainLoop_length_le rs (Finset.range N) hv
    rw [sentinelRefCount]
    omega

theorem stop_sentinel_refcount_safe_witness :
    (stopSetup 2 1).2 = 1 + 2 ∧
    (1 : Nat) ≤ sentinelRefCount 1 2 2 :=
  ⟨(stop_sentinel_refcount_safe 2 1 [0, 1] (by decide) (by decide)).2.1,
   (stop_sentinel_refcount_safe 2 1 [0, 1] (by decide)
      (by decide)).2.2.2.2 2 (by decide)⟩

/-- The coordinator's mutable state: the `workers_` pool, and the queue
state the policy owns — the coordinator-level central queue (`data_`,
policy-defined coordinator data) plus each worker's local queue — together
with the set of worker threads already joined.  Resumables are identified
by `Nat`. -/
structure CoordState where
  workers_ : List WorkerState
  centralQueue : List Nat
  workerQueues : List (List Nat)
  joined : Finset Nat

/-- A policy, as the coordinator sees it (spec §4.3): `central_enqueue`
places a job into the policy-owned coordinator data — the policy's own
state types are "exclusively owned and mutated by the policy's own
operations", so the operation is a function of the central queue and
the job. -/
structure Policy where
  centralEnqueue : List Nat → Nat → List Nat

/-- `coordinator::enqueue(resumable* ptr)`: the body is exactly
`policy_.central_enqueue(this, ptr);`. -/
def CoordState.enqueue (st : CoordState) (P : Policy) (ptr : Nat) : CoordState :=
  { st with centralQueue := P.centralEnqueue st.centralQueue ptr }

/-- The state effect of `coordinator::stop()`: the drain loop and the joins
mark every pool worker's thread joined, and the cleanup pass empties every
worker-local queue and the central queue (each drained resumable having
passed through `cleanup_and_release`).  The `workers_` vector itself is only
read (indexed, iterated, joined on), never resized or reassigned. -/
def CoordState.stopState (st : CoordState) : CoordState :=
  { st with
    joined := Finset.range st.workers_.length,
    workerQueues := st.workerQueues.map fun _ => [],
    centralQueue := [] }

/-- The coordinator operations available once `start()` has populated the
pool: `enqueue`, `worker_by_id`, `data`, `stop`.  `worker_by_id` and `data`
are read-only accessors (`return workers_[x].get();` and `return data_;`),
so their state effect is the identity. -/
inductive CoordOp where
  | enqueueOp (ptr : Nat)
  | workerByIdOp (i : Nat)
  | dataOp
  | stopOp

/-- Apply one coordinator operation to the coordinator state. -/
def CoordState.applyOp (P : Policy) (st : CoordState) : CoordOp → CoordState
  | CoordOp.enqueueOp ptr => st.enqueue P ptr
  | CoordOp.workerByIdOp _ => st
  | CoordOp.dataOp => st
  | CoordOp.stopOp => st.stopState

/-- C8: once `start()` has populated the worker pool, no coordinator
operation changes it again: any sequence of `enqueue`, `worker_by_id`,
`data` and `stop` operations, under any policy, leaves the `workers_`
sequence — its length and every element — unchanged. -/
theorem pool_write_once_read_only (P : Policy) (st : CoordState)
    (ops : List CoordOp) :
    (ops.foldl (CoordState.applyOp P) st).workers_ = st.workers_ ∧
    (ops.foldl (CoordState.applyOp P) st).workers_.length =
      st.workers_.length ∧
    (∀ (i : Nat), (ops.foldl (CoordState.applyOp P) st).workers_[i]? =
      st.workers_[i]?) := by
  have main : ∀ (ops : List CoordOp) (st : CoordState),
      (ops.foldl (CoordState.applyOp P) st).workers_ = st.workers_ := by
    intro ops
    induction ops with
    | nil => intro st; rfl
    | cons op ops ih =>
      intro st
      rw [List.foldl_cons, ih]
      cases op <;> rfl
  exact ⟨main ops st, by rw [main ops st], fun i => by rw [main ops st]⟩

/-- C9: `coordinator::enqueue(ptr)` is exactly the policy operation
`central_enqueue` applied to this coordinator's central data and `ptr`: the
central queue becomes whatever `central_enqueue` yields, and every other
piece of coordinator state — the pool, the worker-local queues, the joined
set — is untouched, for every policy. -/
theorem enqueue_delegates_to_central_enqueue (P : Policy) (st : CoordState)
    (ptr : Nat) :
    (st.enqueue P ptr).centralQueue = P.centralEnqueue st.centralQueue ptr ∧
    (st.enqueue P ptr).workers_ = st.workers_ ∧
    (st.enqueue P ptr).workerQueues = st.workerQueues ∧
    (st.enqueue P ptr).joined = st.joined :=
  ⟨rfl, rfl, rfl, rfl⟩
